import Mathlib

/-!
Shallow embedding of `reco_utils/recommender/deeprec/IO/iterator.py`
(class `FFMTextIterator`): the line parser `parser_one_line`, the batch
loop `load_data_from_file`, and the sparse encoder `_convert_data`.

The program never computes with the parsed float values: labels and
weights are only stored and permuted.  Python `float(s)` is therefore
modelled by `pyFloat`, which validates the decimal-literal grammar
(optional sign, digits with optional fraction, optional exponent) and
carries the parsed numeral exactly as a mantissa/exponent pair `PyF`
(value = mant * 10 ^ exp); the exotic forms (`inf`, `nan`, underscore
separators) are outside the lines this iterator is fed.  `pyInt` models
Python `int(s)`.  Strings are processed as `List Char` so that every
definition is structurally recursive and evaluates inside the kernel;
`pyTrimL` and `pySplitL` model Python `str.strip()` and
`str.split(sep)` (the latter keeps empty chunks, exactly as Python does
for an explicit separator).

Python raises `ValueError` on a non-numeric component and `IndexError`
when a token has fewer than three `:`-separated parts; the design
taxonomy folds both parse-time failures into one `FormatError`, which is
what we model.
-/

/-- Single parse-time error, covering both malformed-token shapes
(Python `IndexError`) and non-numeric components (Python `ValueError`). -/
inductive FormatError where
  | formatError
  deriving DecidableEq, Repr

instance {ε α : Type} [DecidableEq ε] [DecidableEq α] : DecidableEq (Except ε α) := fun x y =>
  match x, y with
  | .error a, .error b =>
    if h : a = b then isTrue (by rw [h]) else isFalse (by intro hc; injection hc; exact h (by assumption))
  | .ok a, .ok b =>
    if h : a = b then isTrue (by rw [h]) else isFalse (by intro hc; injection hc; exact h (by assumption))
  | .error _, .ok _ => isFalse nofun
  | .ok _, .error _ => isFalse nofun

/-- Exact decimal carrier for a parsed Python float: the numeral
`sign * digits [. digits] [e digits]` is stored as `mant * 10 ^ exp`.
The iterator only stores and permutes these values, never computes with
them, so the carrier only has to be deterministic and exact. -/
structure PyF where
  mant : Int
  exp : Int
  deriving DecidableEq, Repr

/-- A parsed feature triple `(field_id, feature_index, weight)`,
0-based ids as stored by `parser_one_line` (Python ints may be negative). -/
abbrev Triple := Int × Int × PyF

/-- Configuration fixed at iterator construction:
`FEATURE_COUNT`, `FIELD_COUNT`, `batch_size` and the two separators. -/
structure Cfg where
  feature_cnt : Int
  field_cnt : Int
  batch_size : Nat
  col_spliter : Char
  ID_spliter : Char

/-- One parsed record: the return value of `parser_one_line`. -/
structure ParsedRec where
  label : PyF
  features : List Triple
  impression_id : Option String
  deriving DecidableEq, Repr

/-- Python `str.strip()`: drop whitespace from both ends. -/
def pyTrimL (l : List Char) : List Char :=
  ((l.dropWhile Char.isWhitespace).reverse.dropWhile Char.isWhitespace).reverse

/-- Python `str.split(sep)` for a one-character separator: split at every
occurrence, keeping empty chunks; the result is always non-empty. -/
def pySplitL (sep : Char) : List Char → List (List Char)
  | [] => [[]]
  | c :: r =>
    match pySplitL sep r with
    | [] => if c = sep then [[], []] else [[c]]
    | g :: gs => if c = sep then [] :: g :: gs else (c :: g) :: gs

/-- Numeric value of a decimal digit character. -/
def digitVal (c : Char) : Nat := c.toNat - 48

/-- Value of a string of decimal digits. -/
def digitsVal (l : List Char) : Nat := l.foldl (fun a c => 10 * a + digitVal c) 0

/-- Strip one optional leading sign, returning the sign as `±1`. -/
def splitSign : List Char → (Int × List Char)
  | '+' :: r => (1, r)
  | '-' :: r => (-1, r)
  | r => (1, r)

/-- Parse a signed, non-empty, all-digit exponent body. -/
def expDigits (r : List Char) : Option Int :=
  let p := splitSign r
  if p.2 ≠ [] ∧ p.2.all Char.isDigit then some (p.1 * (digitsVal p.2 : Int)) else none

/-- Parse the optional exponent suffix of a float literal. -/
def expVal : List Char → Option Int
  | [] => some 0
  | 'e' :: r => expDigits r
  | 'E' :: r => expDigits r
  | _ => none

/-- Model of Python `float` on the decimal-literal grammar: optional
sign, digits with optional fractional part, optional exponent. -/
def pyFloat (s : List Char) : Option PyF :=
  let p := splitSign (pyTrimL s)
  let ip := p.2.takeWhile Char.isDigit
  let rest := p.2.dropWhile Char.isDigit
  match rest with
  | '.' :: r2 =>
    let fp := r2.takeWhile Char.isDigit
    let rest2 := r2.dropWhile Char.isDigit
    if ip.isEmpty && fp.isEmpty then none
    else
      match expVal rest2 with
      | none => none
      | some e => some ⟨p.1 * (digitsVal (ip ++ fp) : Int), e - fp.length⟩
  | _ =>
    if ip.isEmpty then none
    else
      match expVal rest with
      | none => none
      | some e => some ⟨p.1 * (digitsVal ip : Int), e⟩

/-- Model of Python `int`: optional surrounding whitespace, optional
sign, then a non-empty digit string. -/
def pyInt (s : List Char) : Option Int :=
  let p := splitSign (pyTrimL s)
  if p.2 ≠ [] ∧ p.2.all Char.isDigit then some (p.1 * (digitsVal p.2 : Int)) else none

/-- Parse one separator-delimited token of a line: an empty token is
skipped (`none`), otherwise the first three `:`-separated parts must be
`int`, `int`, `float`; parts beyond the third are ignored, mirroring
`[int(tokens[0]) - 1, int(tokens[1]) - 1, float(tokens[2])]`. -/
def parseToken (w : List Char) : Except FormatError (Option Triple) :=
  if pyTrimL w = [] then .ok none
  else
    match pySplitL ':' w with
    | t0 :: t1 :: t2 :: _ =>
      match pyInt t0, pyInt t1, pyFloat t2 with
      | some f, some idx, some v => .ok (some (f - 1, idx - 1, v))
      | _, _, _ => .error .formatError
    | _ => .error .formatError

/-- Fold `parseToken` over the feature tokens of a line, in order. -/
def parseTokens : List (List Char) → Except FormatError (List Triple)
  | [] => .ok []
  | w :: ws =>
    match parseToken w with
    | .error e => .error e
    | .ok none => parseTokens ws
    | .ok (some t) =>
      match parseTokens ws with
      | .error e => .error e
      | .ok ts => .ok (t :: ts)

/-- `line.strip().split(ID_spliter)`. -/
def splitWordsL (cfg : Cfg) (line : List Char) : List (List Char) :=
  pySplitL cfg.ID_spliter (pyTrimL line)

/-- `words[0].strip().split(col_spliter)`. -/
def splitColsL (cfg : Cfg) (line : List Char) : List (List Char) :=
  pySplitL cfg.col_spliter (pyTrimL ((splitWordsL cfg line).headD []))

/-- The optional trailing identifier: present exactly when splitting on
the identifier separator yields two parts. -/
def impressionOfL (cfg : Cfg) (line : List Char) : Option String :=
  let words := splitWordsL cfg line
  if words.length = 2 then some ⟨pyTrimL (words.getD 1 [])⟩ else none

/-- `FFMTextIterator.parser_one_line`: label from the first column,
then one optional triple per remaining token. -/
def parser_one_line (cfg : Cfg) (line : String) : Except FormatError ParsedRec :=
  let cols := splitColsL cfg line.toList
  match pyFloat (cols.headD []) with
  | none => .error .formatError
  | some label =>
    match parseTokens cols.tail with
    | .error e => .error e
    | .ok feats => .ok ⟨label, feats, impressionOfL cfg line.toList⟩

/-- Default configuration used by the concrete evaluations below. -/
def cfgW : Cfg := ⟨10, 2, 3, ' ', '%'⟩

/-!
The encoder `_convert_data`.  The per-record Python dict
`dnn_feat_dic` is modelled as a function `Int → Option Nat` (absent key
= `none`), updated pointwise.  `pymax` is the running-maximum update
`if dnn_feat_shape[1] < v: dnn_feat_shape[1] = v`.
-/

/-- State of the two coordinate-building loops of `_convert_data`:
the flat (FM) lists, the field-grouped (DNN) lists, and the running
`dnn_feat_shape[1]` value (initially `-1`). -/
structure ConvState where
  fm_idx : List (Int × Int)
  fm_val : List PyF
  dnn_idx : List (Int × Int)
  dnn_val : List Int
  dnn_wt : List PyF
  width : Int
  deriving DecidableEq, Repr

/-- Initial loop state: empty lists, `dnn_feat_shape[1] = -1`. -/
def initState : ConvState := ⟨[], [], [], [], [], -1⟩

/-- The dict update `dic[f] = 0 if f not in dic else dic[f] + 1`,
returning the stored occurrence index. -/
def pyBump (dic : Int → Option Nat) (f : Int) : Nat :=
  match dic f with
  | none => 0
  | some v => v + 1

/-- Running maximum as written in the source:
`if w < v then v else w`. -/
def pymax (w v : Int) : Int := if w < v then v else w

/-- Inner loop of `_convert_data` over the triples of record `i`:
appends one flat entry and one field-grouped entry per triple and
tracks per-field occurrence counts in `dic`. -/
def convertTriples (F : Int) (i : Nat) : List Triple → (Int → Option Nat) → ConvState → ConvState
  | [], _, s => s
  | t :: rest, dic, s =>
    convertTriples F i rest (fun x => if x = t.1 then some (pyBump dic t.1) else dic x)
      ⟨s.fm_idx ++ [((i : Int), t.2.1)],
       s.fm_val ++ [t.2.2],
       s.dnn_idx ++ [((i : Int) * F + t.1, (pyBump dic t.1 : Int))],
       s.dnn_val ++ [t.2.1],
       s.dnn_wt ++ [t.2.2],
       pymax s.width (pyBump dic t.1 : Int)⟩

/-- Outer loop of `_convert_data` over `i in range(instance_cnt)`;
`features[i]` is read with an empty-list default, the lists being
parallel in every reachable call. -/
def convertLoop (F : Int) (features : List (List Triple)) : Nat → Nat → ConvState → ConvState
  | 0, _, s => s
  | n + 1, i, s =>
    convertLoop F features n (i + 1) (convertTriples F i (features.getD i []) (fun _ => none) s)

/-- The coordinate-building phase of `_convert_data` (source lines
96-126): both loops run from the initial state. -/
def convertCore (cfg : Cfg) (labels : List PyF) (features : List (List Triple)) : ConvState :=
  convertLoop cfg.field_cnt features labels.length 0 initState

/-- Sort key comparison used on positions into `dnn_feat_indices`:
lexicographic on `(row, col)` with the original position as the final
tie-break.  Python `sorted` is stable, and a stable sort of the distinct
positions `range n` by key `(row, col)` returns exactly the unique
permutation sorted by this three-component linear order. -/
abbrev dnnLe (idx : List (Int × Int)) (a b : Nat) : Prop :=
  (idx.getD a (0, 0)).1 < (idx.getD b (0, 0)).1 ∨
    ((idx.getD a (0, 0)).1 = (idx.getD b (0, 0)).1 ∧
      ((idx.getD a (0, 0)).2 < (idx.getD b (0, 0)).2 ∨
        ((idx.getD a (0, 0)).2 = (idx.getD b (0, 0)).2 ∧ a ≤ b)))

/-- `sorted_index = sorted(range(len(dnn_feat_indices)), key=...)`. -/
def sortedIndex (idx : List (Int × Int)) : List Nat :=
  List.insertionSort (dnnLe idx) (List.range idx.length)

/-- The payload assembled by `_convert_data` (`res` in the source);
`np.asarray(...)` keeps list contents, so the fields are the lists
themselves, the DNN ones gathered through `sorted_index`. -/
structure ConvertResult where
  fm_feat_indices : List (Int × Int)
  fm_feat_values : List PyF
  fm_feat_shape : Int × Int
  labels : List (List PyF)
  dnn_feat_indices : List (Int × Int)
  dnn_feat_values : List Int
  dnn_feat_weights : List PyF
  dnn_feat_shape : Int × Int
  deriving DecidableEq, Repr

/-- `FFMTextIterator._convert_data`. -/
def convert_data (cfg : Cfg) (labels : List PyF) (features : List (List Triple)) : ConvertResult :=
  let s := convertCore cfg labels features
  let perm := sortedIndex s.dnn_idx
  ⟨s.fm_idx,
   s.fm_val,
   ((labels.length : Int), cfg.feature_cnt),
   labels.map (fun l => [l]),
   perm.map (fun k => s.dnn_idx.getD k (0, 0)),
   perm.map (fun k => s.dnn_val.getD k 0),
   perm.map (fun k => s.dnn_wt.getD k ⟨0, 0⟩),
   ((labels.length : Int) * cfg.field_cnt, s.width + 1)⟩

/-- The batching loop of `load_data_from_file`: parse each line,
append the record to the buffer, emit the buffer every time it reaches
`batch_size`, and flush a non-empty buffer at end of input.  The source
yields `gen_feed_dict(_convert_data(...))` at each emission point; the
emitted record batches are exposed here and their encodings below. -/
def load_data_loop (cfg : Cfg) : List String → List ParsedRec →
    Except FormatError (List (List ParsedRec))
  | [], buf => if buf.isEmpty then .ok [] else .ok [buf]
  | line :: rest, buf =>
    match parser_one_line cfg line with
    | .error e => .error e
    | .ok r =>
      if (buf ++ [r]).length = cfg.batch_size then
        match load_data_loop cfg rest [] with
        | .error e => .error e
        | .ok bs => .ok ((buf ++ [r]) :: bs)
      else
        load_data_loop cfg rest (buf ++ [r])

/-- `FFMTextIterator.load_data_from_file`, at the record-batch level:
the finite sequence of batches produced from the given lines. -/
def load_data_from_file (cfg : Cfg) (lines : List String) :
    Except FormatError (List (List ParsedRec)) :=
  load_data_loop cfg lines []

/-- The payload sequence actually yielded by the generator: each
emitted batch passed through `_convert_data` on its parallel label and
feature lists. -/
def load_payloads (cfg : Cfg) (lines : List String) : Except FormatError (List ConvertResult) :=
  match load_data_from_file cfg lines with
  | .error e => .error e
  | .ok bs => .ok (bs.map (fun b => convert_data cfg (b.map (·.label)) (b.map (·.features))))


/-!
Closed-form characterization of the coordinate-building loops.  The
position a triple receives in the field-grouped view is the number of
earlier triples of the same field in the same record; `recEntries`
states this directly and is proved equal to what the dict-driven loop
computes.
-/

/-- Number of triples with field id `f` in `l`. -/
def fieldCount (f : Int) (l : List Triple) : Nat := l.countP (fun t => t.1 == f)

/-- Contents of the per-record dict after processing the triples `pre`:
a field maps to its occurrence count minus one, absent when unseen. -/
def countOpt (pre : List Triple) (f : Int) : Option Nat :=
  if fieldCount f pre = 0 then none else some (fieldCount f pre - 1)

/-- Field-grouped entries contributed by the triples `rest` of record
`i`, after the triples `pre` of the same record: each triple `t` yields
row `i * F + field` and column = number of earlier same-field triples. -/
def recEntries (F : Int) (i : Nat) : List Triple → List Triple → List (Int × Int)
  | _, [] => []
  | pre, t :: rest =>
    ((i : Int) * F + t.1, (fieldCount t.1 pre : Int)) :: recEntries F i (pre ++ [t]) rest

/-- Flat (FM) index pairs contributed by records `i, i+1, ..., i+n-1`. -/
def fmRows (features : List (List Triple)) : Nat → Nat → List (Int × Int)
  | 0, _ => []
  | n + 1, i => (features.getD i []).map (fun t => ((i : Int), t.2.1)) ++ fmRows features n (i + 1)

/-- Weights contributed by records `i, ..., i+n-1` (both the flat value
array and the field-grouped weight array list exactly these). -/
def fmVals (features : List (List Triple)) : Nat → Nat → List PyF
  | 0, _ => []
  | n + 1, i => (features.getD i []).map (fun t => t.2.2) ++ fmVals features n (i + 1)

/-- Field-grouped index pairs contributed by records `i, ..., i+n-1`. -/
def dnnRows (F : Int) (features : List (List Triple)) : Nat → Nat → List (Int × Int)
  | 0, _ => []
  | n + 1, i => recEntries F i [] (features.getD i []) ++ dnnRows F features n (i + 1)

/-- Feature indices contributed to the field-grouped value array. -/
def dnnVals (features : List (List Triple)) : Nat → Nat → List Int
  | 0, _ => []
  | n + 1, i => (features.getD i []).map (fun t => t.2.1) ++ dnnVals features n (i + 1)

/-- A feature token the parser must reject: fewer than three
`:`-separated parts, or a non-numeric field, index or value part. -/
def badToken (w : List Char) : Prop :=
  (pySplitL ':' w).length < 3 ∨
    pyInt ((pySplitL ':' w).getD 0 []) = none ∨
    pyInt ((pySplitL ':' w).getD 1 []) = none ∨
    pyFloat ((pySplitL ':' w).getD 2 []) = none

instance (w : List Char) : Decidable (badToken w) := by
  unfold badToken
  exact inferInstance

/-- Worked batch from the design document: one record,
`1 1:3:1.0 1:5:2.0 2:9:0.5` parsed with `field_count = 2`. -/
def exLabels : List PyF := [⟨1, 0⟩]

/-- Triples of the worked example record (0-based). -/
def exFeatures : List (List Triple) :=
  [[(0, 2, ⟨10, -1⟩), (0, 4, ⟨20, -1⟩), (1, 8, ⟨5, -1⟩)]]

/-- Four label-only source lines. -/
def exLines : List String := ["1", "0", "1", "0"]

/-- The two batches obtained from `exLines` at `batch_size = 3`. -/
def exBatches : List (List ParsedRec) :=
  [[⟨⟨1, 0⟩, [], none⟩, ⟨⟨0, 0⟩, [], none⟩, ⟨⟨1, 0⟩, [], none⟩], [⟨⟨0, 0⟩, [], none⟩]]


example : pyFloat "1.5".toList = some ⟨15, -1⟩ := by decide
example : pyFloat "abc".toList = none := by decide
example : pyInt "0".toList = some 0 := by decide
example : pyInt "-3".toList = some (-3) := by decide
example : pyInt "1.0".toList = none := by decide
example : parseToken "1:3:1.0".toList = .ok (some (0, 2, ⟨10, -1⟩)) := by decide
example : parseToken "abc:1:1.0".toList = .error .formatError := by decide
example : parser_one_line cfgW "1 1:3:1.0 2:9:0.5" =
    .ok ⟨⟨1, 0⟩, [(0, 2, ⟨10, -1⟩), (1, 8, ⟨5, -1⟩)], none⟩ := by decide
example : parser_one_line cfgW "1.5" = .ok ⟨⟨15, -1⟩, [], none⟩ := by decide
example : parser_one_line cfgW "0.5 1:3:1.0%imp1" =
    .ok ⟨⟨5, -1⟩, [(0, 2, ⟨10, -1⟩)], some "imp1"⟩ := by decide

example : convert_data cfgW [⟨1, 0⟩] [[(0, 2, ⟨10, -1⟩), (0, 4, ⟨20, -1⟩), (1, 8, ⟨5, -1⟩)]] =
    ⟨[(0, 2), (0, 4), (0, 8)],
     [⟨10, -1⟩, ⟨20, -1⟩, ⟨5, -1⟩],
     (1, 10),
     [[⟨1, 0⟩]],
     [(0, 0), (0, 1), (1, 0)],
     [2, 4, 8],
     [⟨10, -1⟩, ⟨20, -1⟩, ⟨5, -1⟩],
     (2, 2)⟩ := by decide

example : load_data_from_file cfgW ["1", "0", "1", "0"] =
    .ok [[⟨⟨1, 0⟩, [], none⟩, ⟨⟨0, 0⟩, [], none⟩, ⟨⟨1, 0⟩, [], none⟩], [⟨⟨0, 0⟩, [], none⟩]] := by
  decide
/-- Total number of triples in records `i, ..., i+n-1`. -/
def triplesFrom (features : List (List Triple)) : Nat → Nat → Nat
  | 0, _ => 0
  | n + 1, i => (features.getD i []).length + triplesFrom features n (i + 1)

theorem convertTriples_spec (F : Int) (i : Nat) :
    ∀ (rest pre : List Triple) (dic : Int → Option Nat) (s : ConvState),
    (∀ f, dic f = countOpt pre f) →
    convertTriples F i rest dic s =
      ⟨s.fm_idx ++ rest.map (fun t => ((i : Int), t.2.1)),
       s.fm_val ++ rest.map (fun t => t.2.2),
       s.dnn_idx ++ recEntries F i pre rest,
       s.dnn_val ++ rest.map (fun t => t.2.1),
       s.dnn_wt ++ rest.map (fun t => t.2.2),
       ((recEntries F i pre rest).map (fun e => e.2)).foldl pymax s.width⟩ := by
  intro rest
  induction rest with
  | nil => intro pre dic s h; simp [convertTriples, recEntries]
  | cons t rest ih =>
    intro pre dic s h
    have hk : pyBump dic t.1 = fieldCount t.1 pre := by
      have ht := h t.1
      unfold pyBump
      rw [ht]
      unfold countOpt
      by_cases h0 : fieldCount t.1 pre = 0
      · simp [h0]
      · simp [h0]; omega
    have hdic : ∀ f, (fun x => if x = t.1 then some (pyBump dic t.1) else dic x) f
        = countOpt (pre ++ [t]) f := by
      intro f
      by_cases hf : f = t.1
      · subst hf
        have hcnt : fieldCount t.1 (pre ++ [t]) = fieldCount t.1 pre + 1 := by
          simp [fieldCount, List.countP_append, List.countP_cons]
        simp only [if_pos rfl, hk, countOpt, hcnt]
        simp
      · have hne : (t.1 == f) = false := beq_eq_false_iff_ne.mpr (fun h' => hf h'.symm)
        have hcnt : fieldCount f (pre ++ [t]) = fieldCount f pre := by
          simp [fieldCount, List.countP_append, List.countP_cons, hne]
        simp only [if_neg hf, h f, countOpt, hcnt]
    simp only [convertTriples]
    rw [ih (pre ++ [t]) _ _ hdic]
    simp [recEntries, hk, List.append_assoc]

theorem convertLoop_spec (F : Int) (features : List (List Triple)) :
    ∀ (n i : Nat) (s : ConvState),
    convertLoop F features n i s =
      ⟨s.fm_idx ++ fmRows features n i,
       s.fm_val ++ fmVals features n i,
       s.dnn_idx ++ dnnRows F features n i,
       s.dnn_val ++ dnnVals features n i,
       s.dnn_wt ++ fmVals features n i,
       ((dnnRows F features n i).map (fun e => e.2)).foldl pymax s.width⟩ := by
  intro n
  induction n with
  | zero => intro i s; simp [convertLoop, fmRows, fmVals, dnnRows, dnnVals]
  | succ n ih =>
    intro i s
    simp only [convertLoop]
    rw [convertTriples_spec F i (features.getD i []) [] _ s
      (fun f => by simp [countOpt, fieldCount])]
    rw [ih]
    simp [fmRows, fmVals, dnnRows, dnnVals, List.append_assoc, List.foldl_append]

/-- Closed form of the coordinate-building phase. -/
theorem convertCore_spec (cfg : Cfg) (labels : List PyF) (features : List (List Triple)) :
    convertCore cfg labels features =
      ⟨fmRows features labels.length 0,
       fmVals features labels.length 0,
       dnnRows cfg.field_cnt features labels.length 0,
       dnnVals features labels.length 0,
       fmVals features labels.length 0,
       ((dnnRows cfg.field_cnt features labels.length 0).map (fun e => e.2)).foldl pymax
         (-1)⟩ := by
  unfold convertCore initState
  rw [convertLoop_spec]
  simp

theorem recEntries_length (F : Int) (i : Nat) :
    ∀ (rest pre : List Triple), (recEntries F i pre rest).length = rest.length := by
  intro rest
  induction rest with
  | nil => intro pre; simp [recEntries]
  | cons t rest ih => intro pre; simp [recEntries, ih]

theorem fmRows_length (features : List (List Triple)) :
    ∀ n i, (fmRows features n i).length = triplesFrom features n i := by
  intro n
  induction n with
  | zero => intro i; simp [fmRows, triplesFrom]
  | succ n ih => intro i; simp [fmRows, triplesFrom, ih]

theorem fmVals_length (features : List (List Triple)) :
    ∀ n i, (fmVals features n i).length = triplesFrom features n i := by
  intro n
  induction n with
  | zero => intro i; simp [fmVals, triplesFrom]
  | succ n ih => intro i; simp [fmVals, triplesFrom, ih]

theorem dnnRows_length (F : Int) (features : List (List Triple)) :
    ∀ n i, (dnnRows F features n i).length = triplesFrom features n i := by
  intro n
  induction n with
  | zero => intro i; simp [dnnRows, triplesFrom]
  | succ n ih => intro i; simp [dnnRows, triplesFrom, ih, recEntries_length]

theorem dnnVals_length (features : List (List Triple)) :
    ∀ n i, (dnnVals features n i).length = triplesFrom features n i := by
  intro n
  induction n with
  | zero => intro i; simp [dnnVals, triplesFrom]
  | succ n ih => intro i; simp [dnnVals, triplesFrom, ih]

theorem dnnLe_total (idx : List (Int × Int)) : ∀ a b, dnnLe idx a b ∨ dnnLe idx b a := by
  intro a b; omega

theorem dnnLe_trans (idx : List (Int × Int)) :
    ∀ a b c, dnnLe idx a b → dnnLe idx b c → dnnLe idx a c := by
  intro a b c hab hbc; omega

theorem sortedIndex_perm (idx : List (Int × Int)) :
    (sortedIndex idx).Perm (List.range idx.length) :=
  List.perm_insertionSort _ _

theorem sortedIndex_sorted (idx : List (Int × Int)) :
    List.Sorted (dnnLe idx) (sortedIndex idx) := by
  haveI : IsTotal Nat (dnnLe idx) := ⟨dnnLe_total idx⟩
  haveI : IsTrans Nat (dnnLe idx) := ⟨fun a b c => dnnLe_trans idx a b c⟩
  exact List.sorted_insertionSort _ _

theorem sortedIndex_nodup (idx : List (Int × Int)) : (sortedIndex idx).Nodup :=
  ((sortedIndex_perm idx).symm.nodup (List.nodup_range _))

theorem range_map_getD {α : Type} (l : List α) (d : α) :
    (List.range l.length).map (fun k => l.getD k d) = l := by
  apply List.ext_getElem
  · simp
  · intro i h1 h2
    simp [List.getD_eq_getElem?_getD, List.getElem?_eq_getElem h2]

theorem gather_perm {α : Type} (l : List α) (d : α) (p : List Nat)
    (hp : p.Perm (List.range l.length)) : (p.map (fun k => l.getD k d)).Perm l := by
  have h1 := hp.map (fun k => l.getD k d)
  rw [range_map_getD l d] at h1
  exact h1

theorem pymax_eq_max (w v : Int) : pymax w v = max w v := by
  unfold pymax; split <;> omega

theorem foldl_pymax_spec (l : List Int) :
    ∀ a : Int, (l.foldl pymax a = a ∨ l.foldl pymax a ∈ l) ∧ a ≤ l.foldl pymax a ∧
      ∀ c ∈ l, c ≤ l.foldl pymax a := by
  induction l with
  | nil => intro a; simp
  | cons c l ih =>
    intro a
    simp only [List.foldl_cons, pymax_eq_max a c]
    obtain ⟨h1, h2, h3⟩ := ih (a ⊔ c)
    refine ⟨?_, ?_, ?_⟩
    · rcases h1 with h | h
      · rcases max_choice a c with hc | hc
        · left; rw [h, hc]
        · right; rw [h, hc]; exact List.mem_cons_self c l
      · right; exact List.mem_cons_of_mem c h
    · exact le_trans (le_max_left a c) h2
    · intro x hx
      rcases List.mem_cons.mp hx with hx | hx
      · rw [hx]; exact le_trans (le_max_right a c) h2
      · exact h3 x hx

theorem recEntries_col_nonneg (F : Int) (i : Nat) :
    ∀ rest pre, ∀ e ∈ recEntries F i pre rest, 0 ≤ e.2 := by
  intro rest
  induction rest with
  | nil => intro pre e he; simp [recEntries] at he
  | cons t rest ih =>
    intro pre e he
    rcases List.mem_cons.mp he with h | h
    · rw [h]; exact Int.natCast_nonneg _
    · exact ih (pre ++ [t]) e h

theorem dnnRows_col_nonneg (F : Int) (features : List (List Triple)) :
    ∀ n i, ∀ e ∈ dnnRows F features n i, 0 ≤ e.2 := by
  intro n
  induction n with
  | zero => intro i e he; simp [dnnRows] at he
  | succ n ih =>
    intro i e he
    rcases List.mem_append.mp he with h | h
    · exact recEntries_col_nonneg F i _ [] e h
    · exact ih (i + 1) e h

theorem recEntries_filter (F : Int) (i : Nat) (f : Int) :
    ∀ rest pre,
    ((recEntries F i pre rest).filter (fun e => e.1 == (i : Int) * F + f)).map (fun e => e.2)
      = (List.range' (fieldCount f pre) (fieldCount f rest)).map (fun k => (k : Int)) := by
  intro rest
  induction rest with
  | nil => intro pre; simp [recEntries, fieldCount]
  | cons t rest ih =>
    intro pre
    by_cases hf : t.1 = f
    · have hcnt : fieldCount f (pre ++ [t]) = fieldCount f pre + 1 := by
        simp [fieldCount, List.countP_append, List.countP_cons, hf]
      have hcnt2 : fieldCount f (t :: rest) = fieldCount f rest + 1 := by
        simp [fieldCount, List.countP_cons, hf]
      simp [recEntries, List.filter_cons, List.map_cons, ih (pre ++ [t]),
        hcnt, hcnt2, List.range'_succ, hf]
    · have hcnt : fieldCount f (pre ++ [t]) = fieldCount f pre := by
        have hne : (t.1 == f) = false := beq_eq_false_iff_ne.mpr hf
        simp [fieldCount, List.countP_append, List.countP_cons, hne]
      have hcnt2 : fieldCount f (t :: rest) = fieldCount f rest := by
        have hne : (t.1 == f) = false := beq_eq_false_iff_ne.mpr hf
        simp [fieldCount, List.countP_cons, hne]
      have hdrop : (((i : Int) * F + t.1) == ((i : Int) * F + f)) = false := by
        refine beq_eq_false_iff_ne.mpr (fun hc => hf ?_)
        omega
      simp [recEntries, List.filter_cons, hdrop, ih (pre ++ [t]), hcnt, hcnt2]

theorem dnnRows_drop (F : Int) (features : List (List Triple)) :
    ∀ (i n i0 : Nat), i < n →
    (dnnRows F features n i0).drop (triplesFrom features i i0) =
      recEntries F (i0 + i) [] (features.getD (i0 + i) []) ++
        dnnRows F features (n - 1 - i) (i0 + i + 1) := by
  intro i
  induction i with
  | zero =>
    intro n i0 hn
    match n, hn with
    | n + 1, _ => simp [dnnRows, triplesFrom]
  | succ i ih =>
    intro n i0 hn
    match n, hn with
    | n + 1, hn =>
      have hi : i < n := by omega
      have hlen : (recEntries F i0 [] (features.getD i0 [])).length
          = (features.getD i0 []).length := recEntries_length F i0 _ []
      simp only [dnnRows, triplesFrom]
      rw [← List.drop_drop, ← hlen, List.drop_left, ih n (i0 + 1) hi]
      have e1 : i0 + 1 + i = i0 + (i + 1) := by omega
      have e2 : n - 1 - i = n + 1 - 1 - (i + 1) := by omega
      rw [e1, e2]

theorem dnnRows_slice (F : Int) (features : List (List Triple)) (i n i0 : Nat) (h : i < n) :
    ((dnnRows F features n i0).drop (triplesFrom features i i0)).take
        ((features.getD (i0 + i) []).length) =
      recEntries F (i0 + i) [] (features.getD (i0 + i) []) := by
  rw [dnnRows_drop F features i n i0 h,
    ← recEntries_length F (i0 + i) (features.getD (i0 + i) []) []]
  exact List.take_left _ _

theorem load_loop_join (cfg : Cfg) :
    ∀ (lines : List String) (buf : List ParsedRec) (bs : List (List ParsedRec)),
    load_data_loop cfg lines buf = .ok bs →
    ∃ rs, List.Forall₂ (fun line r => parser_one_line cfg line = .ok r) lines rs ∧
      bs.flatten = buf ++ rs := by
  intro lines
  induction lines with
  | nil =>
    intro buf bs h
    refine ⟨[], List.Forall₂.nil, ?_⟩
    by_cases hb : buf.isEmpty
    · simp only [load_data_loop, hb, if_true] at h
      injection h with h
      subst h
      simp [List.isEmpty_iff.mp hb]
    · simp only [load_data_loop, hb, if_false] at h
      injection h with h
      subst h
      simp
  | cons line rest ih =>
    intro buf bs h
    simp only [load_data_loop] at h
    cases hp : parser_one_line cfg line with
    | error e => rw [hp] at h; cases h
    | ok r =>
      rw [hp] at h
      dsimp only at h
      by_cases hb : (buf ++ [r]).length = cfg.batch_size
      · rw [if_pos hb] at h
        cases hload : load_data_loop cfg rest [] with
        | error e => rw [hload] at h; cases h
        | ok bs' =>
          rw [hload] at h
          injection h with h
          subst h
          obtain ⟨rs, hfa, hflat⟩ := ih [] bs' hload
          simp only [List.nil_append] at hflat
          exact ⟨r :: rs, List.Forall₂.cons hp hfa, by simp [hflat]⟩
      · rw [if_neg hb] at h
        obtain ⟨rs, hfa, hflat⟩ := ih (buf ++ [r]) bs h
        exact ⟨r :: rs, List.Forall₂.cons hp hfa, by simp at hflat; simp [hflat]⟩

theorem load_loop_count (cfg : Cfg) (hB : 1 ≤ cfg.batch_size) :
    ∀ lines buf bs, buf.length < cfg.batch_size →
    load_data_loop cfg lines buf = .ok bs →
    bs.length = (buf.length + lines.length + cfg.batch_size - 1) / cfg.batch_size := by
  intro lines
  induction lines with
  | nil =>
    intro buf bs hlt h
    by_cases hb : buf.isEmpty
    · simp only [load_data_loop, hb, if_true] at h
      injection h with h
      subst h
      rw [List.isEmpty_iff.mp hb]
      simp [Nat.div_eq_of_lt (show cfg.batch_size - 1 < cfg.batch_size by omega)]
    · simp only [load_data_loop, hb, if_false] at h
      injection h with h
      subst h
      have hpos : 1 ≤ buf.length := by
        cases buf with
        | nil => simp at hb
        | cons a l => simp
      simp only [List.length_singleton, List.length_nil]
      have e : buf.length + 0 + cfg.batch_size - 1 = buf.length - 1 + cfg.batch_size := by
        omega
      rw [e, Nat.add_div_right _ (by omega), Nat.div_eq_of_lt (by omega)]
  | cons line rest ih =>
    intro buf bs hlt h
    simp only [load_data_loop] at h
    cases hp : parser_one_line cfg line with
    | error e => rw [hp] at h; cases h
    | ok r =>
      rw [hp] at h
      dsimp only at h
      by_cases hb : (buf ++ [r]).length = cfg.batch_size
      · rw [if_pos hb] at h
        cases hload : load_data_loop cfg rest [] with
        | error e => rw [hload] at h; cases h
        | ok bs' =>
          rw [hload] at h
          injection h with h
          subst h
          have hlen : buf.length + 1 = cfg.batch_size := by simp at hb; omega
          have ihr := ih [] bs' (by simp; omega) hload
          simp only [List.length_nil, Nat.zero_add] at ihr
          have e : buf.length + (rest.length + 1) + cfg.batch_size - 1 =
              (rest.length + cfg.batch_size - 1) + cfg.batch_size := by omega
          simp only [List.length_cons, e, Nat.add_div_right _ (show 0 < cfg.batch_size by omega)]
          omega
      · rw [if_neg hb] at h
        have hlen1 : (buf ++ [r]).length = buf.length + 1 := by simp
        have hlt2 : (buf ++ [r]).length < cfg.batch_size := by omega
        have ihr := ih (buf ++ [r]) bs hlt2 h
        simp only [List.length_append, List.length_singleton] at ihr
        have e : buf.length + (rest.length + 1) + cfg.batch_size - 1 =
            buf.length + 1 + rest.length + cfg.batch_size - 1 := by omega
        simp only [List.length_cons, e, ihr]

theorem load_loop_dropLast (cfg : Cfg) :
    ∀ lines buf bs, load_data_loop cfg lines buf = .ok bs →
    ∀ b ∈ bs.dropLast, b.length = cfg.batch_size := by
  intro lines
  induction lines with
  | nil =>
    intro buf bs h b hmem
    by_cases hb : buf.isEmpty
    · simp only [load_data_loop, hb, if_true] at h
      injection h with h
      subst h
      simp at hmem
    · simp only [load_data_loop, hb, if_false] at h
      injection h with h
      subst h
      simp at hmem
  | cons line rest ih =>
    intro buf bs h b hmem
    simp only [load_data_loop] at h
    cases hp : parser_one_line cfg line with
    | error e => rw [hp] at h; cases h
    | ok r =>
      rw [hp] at h
      dsimp only at h
      by_cases hb : (buf ++ [r]).length = cfg.batch_size
      · rw [if_pos hb] at h
        cases hload : load_data_loop cfg rest [] with
        | error e => rw [hload] at h; cases h
        | ok bs' =>
          rw [hload] at h
          injection h with h
          subst h
          cases bs' with
          | nil => simp at hmem
          | cons b2 bs'' =>
            rw [List.dropLast_cons₂] at hmem
            rcases List.mem_cons.mp hmem with hx | hx
            · rw [hx, hb]
            · exact ih [] (b2 :: bs'') hload b hx
      · rw [if_neg hb] at h
        exact ih (buf ++ [r]) bs h b hmem

theorem load_loop_last (cfg : Cfg) (hB : 1 ≤ cfg.batch_size) :
    ∀ lines buf bs, buf.length < cfg.batch_size →
    load_data_loop cfg lines buf = .ok bs → ∀ hne : bs ≠ [],
    (bs.getLast hne).length =
      if (buf.length + lines.length) % cfg.batch_size = 0 then cfg.batch_size
      else (buf.length + lines.length) % cfg.batch_size := by
  intro lines
  induction lines with
  | nil =>
    intro buf bs hlt h hne
    by_cases hb : buf.isEmpty
    · simp only [load_data_loop, hb, if_true] at h
      injection h with h
      subst h
      exact absurd rfl hne
    · simp only [load_data_loop, hb, if_false] at h
      injection h with h
      subst h
      have hpos : 1 ≤ buf.length := by
        cases buf with
        | nil => simp at hb
        | cons a l => simp
      have hmod : (buf.length + ([] : List String).length) % cfg.batch_size = buf.length := by
        simp only [List.length_nil, Nat.add_zero]
        exact Nat.mod_eq_of_lt hlt
      rw [hmod, if_neg (by omega)]
      simp
  | cons line rest ih =>
    intro buf bs hlt h hne
    simp only [load_data_loop] at h
    cases hp : parser_one_line cfg line with
    | error e => rw [hp] at h; cases h
    | ok r =>
      rw [hp] at h
      dsimp only at h
      by_cases hb : (buf ++ [r]).length = cfg.batch_size
      · rw [if_pos hb] at h
        cases hload : load_data_loop cfg rest [] with
        | error e => rw [hload] at h; cases h
        | ok bs' =>
          rw [hload] at h
          injection h with h
          subst h
          have hlen : buf.length + 1 = cfg.batch_size := by simp at hb; omega
          cases bs' with
          | nil =>
            obtain ⟨rs, hfa, hflat⟩ := load_loop_join cfg rest [] [] hload
            have hrs : rs = [] := by simpa using hflat.symm
            subst hrs
            have hrest : rest = [] := by cases hfa; rfl
            subst hrest
            have hmod : (buf.length + (line :: ([] : List String)).length) % cfg.batch_size
                = 0 := by
              simp only [List.length_cons, List.length_nil]
              rw [show buf.length + (0 + 1) = cfg.batch_size from by omega]
              exact Nat.mod_self _
            rw [if_pos hmod, List.getLast_singleton]
            exact hb
          | cons b2 bs'' =>
            have ihr := ih [] (b2 :: bs'') (by simp; omega) hload (List.cons_ne_nil _ _)
            simp only [List.length_nil, Nat.zero_add] at ihr
            have he : buf.length + (line :: rest).length = cfg.batch_size + rest.length := by
              simp only [List.length_cons]; omega
            rw [List.getLast_cons (List.cons_ne_nil b2 bs''), he, Nat.add_mod_left]
            exact ihr
      · rw [if_neg hb] at h
        have hlen1 : (buf ++ [r]).length = buf.length + 1 := by simp
        have hlt2 : (buf ++ [r]).length < cfg.batch_size := by omega
        have ihr := ih (buf ++ [r]) bs hlt2 h hne
        have he : (buf ++ [r]).length + rest.length = buf.length + (line :: rest).length := by
          simp; omega
        rw [he] at ihr
        exact ihr

theorem parseToken_error (w : List Char) (hw : pyTrimL w ≠ []) (hbad : badToken w) :
    parseToken w = .error .formatError := by
  unfold parseToken
  rw [if_neg hw]
  rcases hsplit : pySplitL ':' w with _ | ⟨t0, _ | ⟨t1, _ | ⟨t2, rest⟩⟩⟩
  · rfl
  · rfl
  · rfl
  · have h3 : pyInt t0 = none ∨ pyInt t1 = none ∨ pyFloat t2 = none := by
      unfold badToken at hbad
      rw [hsplit] at hbad
      rcases hbad with hlen | hbad2
      · exfalso; simp at hlen; omega
      · simpa using hbad2
    cases e0 : pyInt t0 with
    | none => simp [e0]
    | some a =>
      cases e1 : pyInt t1 with
      | none => simp [e0, e1]
      | some b =>
        cases e2 : pyFloat t2 with
        | none => simp [e0, e1, e2]
        | some c =>
          rcases h3 with h | h | h
          · rw [e0] at h; cases h
          · rw [e1] at h; cases h
          · rw [e2] at h; cases h

theorem parseTokens_error (ws : List (List Char))
    (h : ∃ w ∈ ws, pyTrimL w ≠ [] ∧ badToken w) :
    parseTokens ws = .error .formatError := by
  induction ws with
  | nil => simp at h
  | cons w ws ih =>
    rcases h with ⟨x, hx, hxt, hxb⟩
    rcases List.mem_cons.mp hx with hx1 | hx2
    · subst hx1
      simp [parseTokens, parseToken_error x hxt hxb]
    · cases hp : parseToken w with
      | error e =>
        cases e
        simp [parseTokens, hp]
      | ok o =>
        cases o with
        | none =>
          simp only [parseTokens, hp]
          exact ih ⟨x, hx2, hxt, hxb⟩
        | some t =>
          simp only [parseTokens, hp, ih ⟨x, hx2, hxt, hxb⟩]

theorem parseTokens_skip (ws : List (List Char)) (h : ∀ w ∈ ws, pyTrimL w = []) :
    parseTokens ws = .ok [] := by
  induction ws with
  | nil => rfl
  | cons w ws ih =>
    have hw := h w (List.mem_cons_self w ws)
    simp [parseTokens, parseToken, hw, ih (fun x hx => h x (List.mem_cons_of_mem w hx))]

/-- C5: for every input line, parsing fails with `FormatError` whenever
some non-empty feature token has fewer than three colon-separated parts
or a non-numeric field, index or value component, or the label itself is
non-numeric. -/
theorem claim_C5 (cfg : Cfg) (line : String)
    (h : pyFloat ((splitColsL cfg line.toList).headD []) = none ∨
      ∃ w ∈ (splitColsL cfg line.toList).tail, pyTrimL w ≠ [] ∧ badToken w) :
    parser_one_line cfg line = .error .formatError := by
  rcases h with h | h
  · simp only [parser_one_line]
    rw [h]
  · cases hf : pyFloat ((splitColsL cfg line.toList).headD []) with
    | none =>
      simp only [parser_one_line]
      rw [hf]
    | some l =>
      simp only [parser_one_line]
      rw [hf, parseTokens_error _ h]

/-- C5 witness: the line `1 abc:1:1.0` (token with non-numeric field
`abc`) is rejected with `FormatError`. -/
theorem claim_C5_witness : parser_one_line cfgW "1 abc:1:1.0" = .error .formatError :=
  claim_C5 cfgW "1 abc:1:1.0" (by decide)

/-- C6: a line whose first column parses as a float and whose remaining
tokens are all empty after trimming parses successfully into a record
with that label and an empty triple list; in particular a label-only
line is valid and empty tokens are skipped rather than rejected. -/
theorem claim_C6 (cfg : Cfg) (line : String) (l : PyF)
    (hl : pyFloat ((splitColsL cfg line.toList).headD []) = some l)
    (hskip : ∀ w ∈ (splitColsL cfg line.toList).tail, pyTrimL w = []) :
    parser_one_line cfg line = .ok ⟨l, [], impressionOfL cfg line.toList⟩ := by
  simp only [parser_one_line]
  rw [hl, parseTokens_skip _ hskip]

/-- C6 witness: the label-only line `1.5` parses to label 1.5 (stored as
mantissa 15, exponent -1) with no triples. -/
theorem claim_C6_witness : parser_one_line cfgW "1.5" = .ok ⟨⟨15, -1⟩, [], none⟩ := by
  have h := claim_C6 cfgW "1.5" ⟨15, -1⟩ (by decide) (by decide)
  rw [h]
  decide

/-- C8 (implicit): a non-empty token with more than three
colon-separated parts whose first three parts are numeric parses
successfully, using only the first three parts and silently ignoring the
rest. -/
theorem claim_C8 (w t0 t1 t2 : List Char) (rest : List (List Char)) (a b : Int) (c : PyF)
    (hw : pyTrimL w ≠ [])
    (hsplit : pySplitL ':' w = t0 :: t1 :: t2 :: rest)
    (_hrest : rest ≠ [])
    (h0 : pyInt t0 = some a) (h1 : pyInt t1 = some b) (h2 : pyFloat t2 = some c) :
    parseToken w = .ok (some (a - 1, b - 1, c)) := by
  unfold parseToken
  rw [if_neg hw, hsplit]
  simp [h0, h1, h2]

/-- C8 witness: `1:2:3:4` parses to the triple from parts `1`, `2`, `3`,
the fourth part being ignored. -/
theorem claim_C8_witness : parseToken "1:2:3:4".toList = .ok (some (0, 1, ⟨3, 0⟩)) := by
  have h := claim_C8 "1:2:3:4".toList "1".toList "2".toList "3".toList ["4".toList]
    1 2 ⟨3, 0⟩ (by decide) (by decide) (by decide) (by decide) (by decide) (by decide)
  rw [h]
  decide

/-- C9 (implicit): parsing performs no positivity check on the field and
index parts: a token whose field or index is a zero or negative integer
parses successfully, producing the corresponding negative 0-based id. -/
theorem claim_C9 (w t0 t1 t2 : List Char) (rest : List (List Char)) (a b : Int) (c : PyF)
    (hw : pyTrimL w ≠ [])
    (hsplit : pySplitL ':' w = t0 :: t1 :: t2 :: rest)
    (h0 : pyInt t0 = some a) (h1 : pyInt t1 = some b) (h2 : pyFloat t2 = some c)
    (_hneg : a ≤ 0 ∨ b ≤ 0) :
    parseToken w = .ok (some (a - 1, b - 1, c)) ∧ (a ≤ 0 → a - 1 < 0) ∧ (b ≤ 0 → b - 1 < 0) := by
  refine ⟨?_, by omega, by omega⟩
  unfold parseToken
  rw [if_neg hw, hsplit]
  simp [h0, h1, h2]

/-- C9 witness: `0:1:1.0` parses to the triple with field id `-1`. -/
theorem claim_C9_witness :
    parseToken "0:1:1.0".toList = .ok (some (-1, 0, ⟨10, -1⟩)) ∧ (-1 : Int) < 0 := by
  have h := claim_C9 "0:1:1.0".toList "0".toList "1".toList "1.0".toList []
    0 1 ⟨10, -1⟩ (by decide) (by decide) (by decide) (by decide) (by decide) (Or.inl (by decide))
  refine ⟨?_, by decide⟩
  rw [h.1]
  decide

theorem sortedIndex_length (idx : List (Int × Int)) : (sortedIndex idx).length = idx.length := by
  unfold sortedIndex
  rw [(List.perm_insertionSort _ _).length_eq, List.length_range]

/-- C1 counterexample: with `feature_count = 10` and `field_count = 2`,
the batch holding the single triple parsed from token `1:20:1.0`
(0-based feature index 19 ≥ 10) is encoded without any failure: a
payload is produced, and it carries the out-of-range column 19
verbatim while the declared flat shape is only `[1, 10]`. -/
theorem claim_C1_counterexample :
    (convert_data cfgW [⟨1, 0⟩] [[(0, 19, ⟨10, -1⟩)]]).fm_feat_indices = [(0, 19)] ∧
      (convert_data cfgW [⟨1, 0⟩] [[(0, 19, ⟨10, -1⟩)]]).fm_feat_shape = (1, 10) ∧
      ¬(19 : Int) < 10 := by
  decide

/-- C1 amended: `_convert_data` performs no range validation at all.
For every batch — including any containing a triple with
`feature_index ≥ feature_count` or `field_id ≥ field_count` — encoding
succeeds, every triple contributes its `(row, feature_index)` pair to
the flat view verbatim (never clamped), and both views hold exactly one
entry per triple (never dropped). -/
theorem claim_C1_amended (cfg : Cfg) (labels : List PyF) (features : List (List Triple)) :
    (convert_data cfg labels features).fm_feat_indices = fmRows features labels.length 0 ∧
      (convert_data cfg labels features).fm_feat_indices.length =
        triplesFrom features labels.length 0 ∧
      (convert_data cfg labels features).dnn_feat_indices.length =
        triplesFrom features labels.length 0 := by
  have hc := convertCore_spec cfg labels features
  refine ⟨?_, ?_, ?_⟩
  · show (convertCore cfg labels features).fm_idx = _
    rw [hc]
  · show (convertCore cfg labels features).fm_idx.length = _
    rw [hc]
    exact fmRows_length features labels.length 0
  · show ((sortedIndex (convertCore cfg labels features).dnn_idx).map
        (fun k => (convertCore cfg labels features).dnn_idx.getD k (0, 0))).length = _
    rw [List.length_map, sortedIndex_length, hc]
    exact dnnRows_length cfg.field_cnt features labels.length 0

/-- C3: for every record `i` of the batch and every field id `f`, the
columns assigned to the occurrences of `f` within record `i` in the
field-grouped coordinate list (the slice of `dnn_feat_indices` built
from record `i`, before sorting) are exactly `0, 1, 2, ...` in textual
order, one per occurrence. -/
theorem claim_C3 (cfg : Cfg) (labels : List PyF) (features : List (List Triple))
    (i : Nat) (f : Int) (hi : i < labels.length) :
    ((((convertCore cfg labels features).dnn_idx.drop (triplesFrom features i 0)).take
        (features.getD i []).length).filter
        (fun e => e.1 == (i : Int) * cfg.field_cnt + f)).map (fun e => e.2)
      = (List.range (fieldCount f (features.getD i []))).map (fun k => (k : Int)) := by
  have hc := convertCore_spec cfg labels features
  have hs := dnnRows_slice cfg.field_cnt features i labels.length 0 hi
  simp only [Nat.zero_add] at hs
  rw [hc]
  dsimp only
  rw [hs, recEntries_filter cfg.field_cnt i f (features.getD i []) []]
  simp [fieldCount, List.range_eq_range']

/-- C3 witness: in the worked example, field 0 of record 0 receives
positions 0 and 1. -/
theorem claim_C3_witness :
    ((((convertCore cfgW exLabels exFeatures).dnn_idx.drop (triplesFrom exFeatures 0 0)).take
        (exFeatures.getD 0 []).length).filter
        (fun e => e.1 == ((0 : Nat) : Int) * cfgW.field_cnt + 0)).map (fun e => e.2)
      = (List.range (fieldCount 0 (exFeatures.getD 0 []))).map (fun k => (k : Int)) :=
  claim_C3 cfgW exLabels exFeatures 0 0 (by decide)

/-- C4: with `batch_size = B ≥ 1`, a successfully loaded source of `L`
lines yields exactly `⌈L / B⌉` batches; every batch except the last has
exactly `B` records, the last has `L mod B` records (`B` when
`L mod B = 0`); an empty source yields no batches; and the records,
batch by batch, are the parses of the source lines in order. -/
theorem claim_C4 (cfg : Cfg) (lines : List String) (bs : List (List ParsedRec))
    (hB : 1 ≤ cfg.batch_size)
    (h : load_data_from_file cfg lines = .ok bs) :
    bs.length = (lines.length + cfg.batch_size - 1) / cfg.batch_size ∧
      (∀ b ∈ bs.dropLast, b.length = cfg.batch_size) ∧
      (∀ hne : bs ≠ [], (bs.getLast hne).length =
        if lines.length % cfg.batch_size = 0 then cfg.batch_size
        else lines.length % cfg.batch_size) ∧
      (lines = [] → bs = []) ∧
      List.Forall₂ (fun line r => parser_one_line cfg line = .ok r) lines bs.flatten := by
  unfold load_data_from_file at h
  refine ⟨?_, load_loop_dropLast cfg lines [] bs h, ?_, ?_, ?_⟩
  · have hcount := load_loop_count cfg hB lines [] bs (by simp; omega) h
    simpa using hcount
  · intro hne
    have hlast := load_loop_last cfg hB lines [] bs (by simp; omega) h hne
    simpa using hlast
  · intro hl
    subst hl
    simp only [load_data_loop, List.isEmpty_nil, if_true] at h
    injection h with h
    exact h.symm
  · obtain ⟨rs, hfa, hflat⟩ := load_loop_join cfg lines [] bs h
    simp only [List.nil_append] at hflat
    rw [hflat]
    exact hfa

/-- C4 witness: 4 lines at batch size 3 yield 2 batches of sizes 3 and
1, in source order. -/
theorem claim_C4_witness :
    exBatches.length = (exLines.length + cfgW.batch_size - 1) / cfgW.batch_size ∧
      (∀ b ∈ exBatches.dropLast, b.length = cfgW.batch_size) ∧
      (∀ hne : exBatches ≠ [], (exBatches.getLast hne).length =
        if exLines.length % cfgW.batch_size = 0 then cfgW.batch_size
        else exLines.length % cfgW.batch_size) ∧
      (exLines = [] → exBatches = []) ∧
      List.Forall₂ (fun line r => parser_one_line cfgW line = .ok r) exLines
        exBatches.flatten :=
  claim_C4 cfgW exLines exBatches (by decide) (by decide)

theorem sortedIndex_stable (idx : List (Int × Int)) :
    (sortedIndex idx).Pairwise
      (fun k1 k2 => idx.getD k1 (0, 0) = idx.getD k2 (0, 0) → k1 < k2) := by
  have hs := sortedIndex_sorted idx
  have hn : (sortedIndex idx).Pairwise (fun a b => a ≠ b) := sortedIndex_nodup idx
  have hand := List.Pairwise.and hs hn
  refine hand.imp ?_
  intro a b hab heq
  obtain ⟨hle, hne⟩ := hab
  have h1 : (idx.getD a (0, 0)).1 = (idx.getD b (0, 0)).1 := by rw [heq]
  have h2 : (idx.getD a (0, 0)).2 = (idx.getD b (0, 0)).2 := by rw [heq]
  simp only [dnnLe] at hle
  omega

theorem sortedIndex_pairwise_map (idx : List (Int × Int)) :
    List.Pairwise (fun x y : Int × Int => x.1 < y.1 ∨ (x.1 = y.1 ∧ x.2 ≤ y.2))
      ((sortedIndex idx).map (fun k => idx.getD k (0, 0))) := by
  refine List.Pairwise.map _ ?_ (sortedIndex_sorted idx)
  intro a b hab
  simp only [dnnLe] at hab
  omega

/-- C2: after encoding, the field-grouped index pairs are totally
ordered ascending by `(row, col)`; the gather permutation is the stable
one (equal keys keep their original insertion order), and the value and
weight arrays are gathered through that same permutation. -/
theorem claim_C2 (cfg : Cfg) (labels : List PyF) (features : List (List Triple)) :
    ∃ p : List Nat,
      p.Perm (List.range (convertCore cfg labels features).dnn_idx.length) ∧
      (convert_data cfg labels features).dnn_feat_indices =
        p.map (fun k => (convertCore cfg labels features).dnn_idx.getD k (0, 0)) ∧
      (convert_data cfg labels features).dnn_feat_values =
        p.map (fun k => (convertCore cfg labels features).dnn_val.getD k 0) ∧
      (convert_data cfg labels features).dnn_feat_weights =
        p.map (fun k => (convertCore cfg labels features).dnn_wt.getD k ⟨0, 0⟩) ∧
      List.Pairwise (fun x y : Int × Int => x.1 < y.1 ∨ (x.1 = y.1 ∧ x.2 ≤ y.2))
        (convert_data cfg labels features).dnn_feat_indices ∧
      p.Pairwise (fun k1 k2 =>
        (convertCore cfg labels features).dnn_idx.getD k1 (0, 0) =
          (convertCore cfg labels features).dnn_idx.getD k2 (0, 0) → k1 < k2) := by
  refine ⟨sortedIndex (convertCore cfg labels features).dnn_idx, sortedIndex_perm _,
    rfl, rfl, rfl, ?_, sortedIndex_stable _⟩
  exact sortedIndex_pairwise_map _

theorem triplesFrom_ge (features : List (List Triple)) :
    ∀ n i0 i, i < n → (features.getD (i0 + i) []).length ≤ triplesFrom features n i0 := by
  intro n
  induction n with
  | zero => intro i0 i h; omega
  | succ n ih =>
    intro i0 i h
    cases i with
    | zero =>
      simp only [triplesFrom, Nat.add_zero]
      omega
    | succ i =>
      have hrec := ih (i0 + 1) i (by omega)
      simp only [triplesFrom]
      have e : i0 + (i + 1) = i0 + 1 + i := by omega
      rw [e]
      omega

/-- C7: for every batch holding at least one triple, the flat shape is
`[N, feature_count]` and the field-grouped shape is
`[N * field_count, m + 1]`, where `m` is the maximum position (column)
occurring in the field-grouped view. -/
theorem claim_C7 (cfg : Cfg) (labels : List PyF) (features : List (List Triple))
    (hne : ∃ i, i < labels.length ∧ features.getD i [] ≠ []) :
    (convert_data cfg labels features).fm_feat_shape =
      ((labels.length : Int), cfg.feature_cnt) ∧
      (convert_data cfg labels features).dnn_feat_shape.1 =
        (labels.length : Int) * cfg.field_cnt ∧
      ∃ m : Int,
        m ∈ (convert_data cfg labels features).dnn_feat_indices.map (fun e => e.2) ∧
        (∀ c ∈ (convert_data cfg labels features).dnn_feat_indices.map (fun e => e.2),
          c ≤ m) ∧
        (convert_data cfg labels features).dnn_feat_shape.2 = m + 1 := by
  obtain ⟨i, hi, hine⟩ := hne
  have hc := convertCore_spec cfg labels features
  refine ⟨rfl, rfl, ?_⟩
  obtain ⟨hmem, hlb, hub⟩ := foldl_pymax_spec
    ((dnnRows cfg.field_cnt features labels.length 0).map (fun e => e.2)) (-1)
  have hlen : 0 < (dnnRows cfg.field_cnt features labels.length 0).length := by
    rw [dnnRows_length]
    have h2 := triplesFrom_ge features labels.length 0 i hi
    simp only [Nat.zero_add] at h2
    have h1 : 0 < (features.getD i []).length := List.length_pos.mpr hine
    omega
  obtain ⟨e0, he0⟩ : ∃ e, e ∈ dnnRows cfg.field_cnt features labels.length 0 :=
    List.exists_mem_of_ne_nil _ (List.length_pos.mp hlen)
  have hc0 : (0 : Int) ≤ e0.2 :=
    dnnRows_col_nonneg cfg.field_cnt features labels.length 0 e0 he0
  have hc0mem : e0.2 ∈ (dnnRows cfg.field_cnt features labels.length 0).map (fun e => e.2) :=
    List.mem_map_of_mem _ he0
  have hwmem : ((dnnRows cfg.field_cnt features labels.length 0).map
      (fun e => e.2)).foldl pymax (-1) ∈
      (dnnRows cfg.field_cnt features labels.length 0).map (fun e => e.2) := by
    rcases hmem with h | h
    · exfalso
      have hb := hub e0.2 hc0mem
      rw [h] at hb
      omega
    · exact h
  have hcolsperm : ((convert_data cfg labels features).dnn_feat_indices.map
      (fun e => e.2)).Perm
      ((dnnRows cfg.field_cnt features labels.length 0).map (fun e => e.2)) := by
    have h1 : (convert_data cfg labels features).dnn_feat_indices.Perm
        (convertCore cfg labels features).dnn_idx :=
      gather_perm _ _ _ (sortedIndex_perm _)
    have h2 := h1.map (fun e => e.2)
    rw [hc] at h2
    exact h2
  have hshape : (convert_data cfg labels features).dnn_feat_shape.2 =
      ((dnnRows cfg.field_cnt features labels.length 0).map
        (fun e => e.2)).foldl pymax (-1) + 1 := by
    show (convertCore cfg labels features).width + 1 = _
    rw [hc]
  refine ⟨((dnnRows cfg.field_cnt features labels.length 0).map
    (fun e => e.2)).foldl pymax (-1), ?_, ?_, hshape⟩
  · exact hcolsperm.mem_iff.mpr hwmem
  · intro c hcmem
    exact hub c (hcolsperm.mem_iff.mp hcmem)

/-- C7 witness: the worked example batch has flat shape `[1, 10]` and
field-grouped shape `[2, 2] = [1*2, 1 + 1]`. -/
theorem claim_C7_witness :
    (convert_data cfgW exLabels exFeatures).fm_feat_shape =
      ((exLabels.length : Int), cfgW.feature_cnt) ∧
      (convert_data cfgW exLabels exFeatures).dnn_feat_shape.1 =
        (exLabels.length : Int) * cfgW.field_cnt ∧
      ∃ m : Int,
        m ∈ (convert_data cfgW exLabels exFeatures).dnn_feat_indices.map (fun e => e.2) ∧
        (∀ c ∈ (convert_data cfgW exLabels exFeatures).dnn_feat_indices.map (fun e => e.2),
          c ≤ m) ∧
        (convert_data cfgW exLabels exFeatures).dnn_feat_shape.2 = m + 1 :=
  claim_C7 cfgW exLabels exFeatures ⟨0, by decide, by decide⟩

/-- C10 (implicit): a non-empty batch whose records all carry no
triples encodes successfully to empty coordinate, value and weight
arrays, labels of shape `[N, 1]`, flat shape `[N, feature_count]`, and
field-grouped shape `[N * field_count, 0]` — the dynamic width
collapses to 0, not 1. -/
theorem claim_C10 (cfg : Cfg) (labels : List PyF) (features : List (List Triple))
    (_hlne : labels ≠ []) (hempty : ∀ rec ∈ features, rec = []) :
    (convert_data cfg labels features).fm_feat_indices = [] ∧
      (convert_data cfg labels features).fm_feat_values = [] ∧
      (convert_data cfg labels features).dnn_feat_indices = [] ∧
      (convert_data cfg labels features).dnn_feat_values = [] ∧
      (convert_data cfg labels features).dnn_feat_weights = [] ∧
      (convert_data cfg labels features).labels.length = labels.length ∧
      (∀ row ∈ (convert_data cfg labels features).labels, row.length = 1) ∧
      (convert_data cfg labels features).fm_feat_shape =
        ((labels.length : Int), cfg.feature_cnt) ∧
      (convert_data cfg labels features).dnn_feat_shape =
        ((labels.length : Int) * cfg.field_cnt, 0) := by
  have hget : ∀ i : Nat, features.getD i [] = [] := by
    intro i
    by_cases hi : i < features.length
    · have hmem : features.getD i [] ∈ features := by
        rw [List.getD_eq_getElem _ _ hi]
        exact List.getElem_mem hi
      exact hempty _ hmem
    · exact List.getD_eq_default _ _ (by omega)
  have hget' : ∀ i : Nat, features[i]?.getD [] = [] := fun i =>
    (List.getD_eq_getElem?_getD _ _ _).symm.trans (hget i)
  have hc := convertCore_spec cfg labels features
  have hfm : ∀ n i, fmRows features n i = [] := by
    intro n
    induction n with
    | zero => intro i; simp [fmRows]
    | succ n ih => intro i; simp [fmRows, hget', ih]
  have hfv : ∀ n i, fmVals features n i = [] := by
    intro n
    induction n with
    | zero => intro i; simp [fmVals]
    | succ n ih => intro i; simp [fmVals, hget', ih]
  have hdr : ∀ n i, dnnRows cfg.field_cnt features n i = [] := by
    intro n
    induction n with
    | zero => intro i; simp [dnnRows]
    | succ n ih => intro i; simp [dnnRows, hget', ih, recEntries]
  have hdv : ∀ n i, dnnVals features n i = [] := by
    intro n
    induction n with
    | zero => intro i; simp [dnnVals]
    | succ n ih => intro i; simp [dnnVals, hget', ih]
  have hidx : (convertCore cfg labels features).dnn_idx = [] := by
    rw [hc]
    exact hdr labels.length 0
  have hw : (convertCore cfg labels features).width = -1 := by
    rw [hc]
    show ((dnnRows cfg.field_cnt features labels.length 0).map (fun e => e.2)).foldl
      pymax (-1) = -1
    rw [hdr labels.length 0]
    rfl
  refine ⟨?_, ?_, ?_, ?_, ?_, ?_, ?_, rfl, ?_⟩
  · show (convertCore cfg labels features).fm_idx = []
    rw [hc]
    exact hfm labels.length 0
  · show (convertCore cfg labels features).fm_val = []
    rw [hc]
    exact hfv labels.length 0
  · show (sortedIndex (convertCore cfg labels features).dnn_idx).map
      (fun k => (convertCore cfg labels features).dnn_idx.getD k (0, 0)) = []
    rw [hidx]
    rfl
  · show (sortedIndex (convertCore cfg labels features).dnn_idx).map
      (fun k => (convertCore cfg labels features).dnn_val.getD k 0) = []
    rw [hidx]
    rfl
  · show (sortedIndex (convertCore cfg labels features).dnn_idx).map
      (fun k => (convertCore cfg labels features).dnn_wt.getD k ⟨0, 0⟩) = []
    rw [hidx]
    rfl
  · show (labels.map (fun l => [l])).length = labels.length
    simp
  · intro row hrow
    have hrow2 : row ∈ labels.map (fun l => [l]) := hrow
    obtain ⟨a, _, rfl⟩ := List.mem_map.mp hrow2
    rfl
  · show ((labels.length : Int) * cfg.field_cnt,
      (convertCore cfg labels features).width + 1) = _
    rw [hw]
    norm_num

/-- C10 witness: two records with no triples encode to empty arrays,
labels `[2, 1]`, flat shape `[2, 10]` and field-grouped shape `[4, 0]`. -/
theorem claim_C10_witness :
    (convert_data cfgW [⟨1, 0⟩, ⟨0, 0⟩] [[], []]).fm_feat_indices = [] ∧
      (convert_data cfgW [⟨1, 0⟩, ⟨0, 0⟩] [[], []]).fm_feat_values = [] ∧
      (convert_data cfgW [⟨1, 0⟩, ⟨0, 0⟩] [[], []]).dnn_feat_indices = [] ∧
      (convert_data cfgW [⟨1, 0⟩, ⟨0, 0⟩] [[], []]).dnn_feat_values = [] ∧
      (convert_data cfgW [⟨1, 0⟩, ⟨0, 0⟩] [[], []]).dnn_feat_weights = [] ∧
      (convert_data cfgW [⟨1, 0⟩, ⟨0, 0⟩] [[], []]).labels.length =
        ([⟨1, 0⟩, ⟨0, 0⟩] : List PyF).length ∧
      (∀ row ∈ (convert_data cfgW [⟨1, 0⟩, ⟨0, 0⟩] [[], []]).labels, row.length = 1) ∧
      (convert_data cfgW [⟨1, 0⟩, ⟨0, 0⟩] [[], []]).fm_feat_shape =
        ((([⟨1, 0⟩, ⟨0, 0⟩] : List PyF).length : Int), cfgW.feature_cnt) ∧
      (convert_data cfgW [⟨1, 0⟩, ⟨0, 0⟩] [[], []]).dnn_feat_shape =
        ((([⟨1, 0⟩, ⟨0, 0⟩] : List PyF).length : Int) * cfgW.field_cnt, 0) :=
  claim_C10 cfgW [⟨1, 0⟩, ⟨0, 0⟩] [[], []] (by decide) (by decide)
